import Mathlib

/-!
Verification of the Bloom filter implementation in `src/BloomFilter.py`.

The state of a `BloomFilter` object is embedded as a structure holding the
configuration (`numKeys`, `numHashes`, `maxFalsePositive`), the computed
bit-array length `numBits`, the bit vector (a `List Bool`, zero-initialized
at construction) and the cached counter `bitsSet`.

The external hash collaborator `BitHash(key, seed)` is modelled as an
arbitrary function `h : κ → ℕ → ℕ` over an opaque key type `κ`; both
`insert` and `find` are parametrized by it, exactly as the Python code is
parametrized by the imported `BitHash`.

Python float arithmetic in `__bitsNeeded` and `falsePositiveRate` is
idealized as real arithmetic (`Real.rpow`, real division); Python's
`ZeroDivisionError` paths in `__init__` are made explicit as `none` results
of the constructor `mkBloomFilter`.
-/

set_option autoImplicit false

namespace BloomSpec

/-- State of a `BloomFilter` object (fields of `self` in `BloomFilter.py`). -/
structure BloomFilter where
  numKeys : ℕ
  numHashes : ℕ
  maxFalsePositive : ℝ
  numBits : ℕ
  bitVector : List Bool
  bitsSet : ℕ

/-- Source `__bitsNeeded` (BloomFilter.py lines 14-19), as a total function
over the reals: `phi = 1 - maxFalsePositive**(1/numHashes)` and the result is
`ceil(numHashes / (1 - phi**(1/numKeys)))`. -/
noncomputable def bitsNeeded (numKeys numHashes : ℕ) (maxFalsePositive : ℝ) : ℤ :=
  let phi : ℝ := 1 - maxFalsePositive ^ ((1 : ℝ) / (numHashes : ℝ))
  ⌈(numHashes : ℝ) / (1 - phi ^ ((1 : ℝ) / (numKeys : ℝ)))⌉

/-- Modelled from the spec (section 4.1 "SizingCalculator"): the two-step
closed form `phi = 1 - maxFalsePositiveRate^(1/numHashes)`,
`N = ceil(numHashes / (1 - phi^(1/numKeys)))`.  Stated separately from
`bitsNeeded` so the source formula can be compared against the spec's. -/
noncomputable def specBitsNeeded (numKeys numHashes : ℕ) (maxFalsePositiveRate : ℝ) : ℤ :=
  let phi : ℝ := 1 - maxFalsePositiveRate ^ ((1 : ℝ) / (numHashes : ℝ))
  let N : ℤ := ⌈(numHashes : ℝ) / (1 - phi ^ ((1 : ℝ) / (numKeys : ℝ)))⌉
  N

/-- Source `__init__` (BloomFilter.py lines 25-37).  Python raises
`ZeroDivisionError` inside `__bitsNeeded` when `numHashes = 0` (in
`1 / numHashes`), when `numKeys = 0` (in `1 / numKeys`), or when the
denominator `1 - phi**(1/numKeys)` is zero (e.g. `maxFalsePositive = 0`);
those paths are returned as `none`.  Otherwise the object is built with a
zero-initialized bit vector of length `numBits` and `bitsSet = 0`. -/
noncomputable def mkBloomFilter (numKeys numHashes : ℕ) (maxFalsePositive : ℝ) :
    Option BloomFilter :=
  if numHashes = 0 then none
  else if numKeys = 0 then none
  else
    let phi : ℝ := 1 - maxFalsePositive ^ ((1 : ℝ) / (numHashes : ℝ))
    if (1 : ℝ) - phi ^ ((1 : ℝ) / (numKeys : ℝ)) = 0 then none
    else
      let nb : ℕ := (bitsNeeded numKeys numHashes maxFalsePositive).toNat
      some
        { numKeys := numKeys
          numHashes := numHashes
          maxFalsePositive := maxFalsePositive
          numBits := nb
          bitVector := List.replicate nb false
          bitsSet := 0 }

/-- Spec section 4.2 "HashChain": the sequence of bit indices produced from
`seed` in `rounds` rounds: each round updates `seed ← h key seed` and emits
`seed mod numBits`.  Both `insert` and `find` in the source walk exactly this
chain (from `seed = 0`). -/
def hashChain {κ : Type} (h : κ → ℕ → ℕ) (key : κ) (numBits : ℕ) :
    ℕ → ℕ → List ℕ
  | 0, _ => []
  | rounds + 1, seed =>
    let seed' := h key seed
    seed' % numBits :: hashChain h key numBits rounds seed'

/-- Loop body of source `insert` (BloomFilter.py lines 43-59): carries the
running `hashLevel`, the bit vector and the `bitsSet` counter through
`rounds` iterations; each round rehashes, and if the addressed bit is unset
it is set and the counter incremented. -/
def insertLoop {κ : Type} (h : κ → ℕ → ℕ) (key : κ) (numBits : ℕ) :
    ℕ → ℕ → List Bool → ℕ → List Bool × ℕ
  | 0, _, bv, bs => (bv, bs)
  | rounds + 1, hashLevel, bv, bs =>
    let hashLevel' := h key hashLevel
    let placeHolder := hashLevel' % numBits
    if bv.getD placeHolder false then
      insertLoop h key numBits rounds hashLevel' bv bs
    else
      insertLoop h key numBits rounds hashLevel' (bv.set placeHolder true) (bs + 1)

/-- Source `insert` (BloomFilter.py lines 43-59): runs `insertLoop` for
`numHashes` rounds from seed 0 and stores the updated bit vector and
counter back into the object. -/
def BloomFilter.insert {κ : Type} (h : κ → ℕ → ℕ) (bf : BloomFilter) (key : κ) :
    BloomFilter :=
  let r := insertLoop h key bf.numBits bf.numHashes 0 bf.bitVector bf.bitsSet
  { bf with bitVector := r.1, bitsSet := r.2 }

/-- Loop body of source `find` (BloomFilter.py lines 64-77): rehashes each
round and returns `false` as soon as an addressed bit is unset; returns
`true` after all `rounds` rounds pass. -/
def findLoop {κ : Type} (h : κ → ℕ → ℕ) (key : κ) (numBits : ℕ) (bv : List Bool) :
    ℕ → ℕ → Bool
  | 0, _ => true
  | rounds + 1, hashLevel =>
    let hashLevel' := h key hashLevel
    if bv.getD (hashLevel' % numBits) false then
      findLoop h key numBits bv rounds hashLevel'
    else
      false

/-- Source `find` (BloomFilter.py lines 64-77).  It only reads the object:
the embedding returns just the boolean, since the Python body assigns no
field of `self`. -/
def BloomFilter.find {κ : Type} (h : κ → ℕ → ℕ) (bf : BloomFilter) (key : κ) : Bool :=
  findLoop h key bf.numBits bf.bitVector bf.numHashes 0

/-- Source `falsePositiveRate` (BloomFilter.py lines 86-96):
`zeros = numBits - bitsSet`, `proportionZeros = zeros / numBits`, result
`(1 - proportionZeros) ** numHashes`. -/
noncomputable def BloomFilter.falsePositiveRate (bf : BloomFilter) : ℝ :=
  let zeros : ℝ := (bf.numBits : ℝ) - (bf.bitsSet : ℝ)
  let proportionZeros : ℝ := zeros / (bf.numBits : ℝ)
  (1 - proportionZeros) ^ bf.numHashes

/-- Source `numBitsSet` (BloomFilter.py lines 101-103): returns the cached
counter. -/
def BloomFilter.numBitsSet (bf : BloomFilter) : ℕ :=
  bf.bitsSet

/-- Structural well-formedness of a filter state: the bit vector has exactly
`numBits` cells and the filter has at least one bit (as any validly
constructed instance does). -/
def BloomFilter.WF (bf : BloomFilter) : Prop :=
  bf.bitVector.length = bf.numBits ∧ 0 < bf.numBits

/-! ### List helper lemmas -/

lemma getD_eq_false_of_le {l : List Bool} {p : ℕ} (hp : l.length ≤ p) :
    l.getD p false = false := by
  induction l generalizing p with
  | nil => simp [List.getD]
  | cons x xs ih =>
    cases p with
    | zero => simp at hp
    | succ q =>
      simp only [List.length_cons, Nat.succ_le_succ_iff] at hp
      simpa [List.getD] using ih hp

lemma lt_length_of_getD_true {l : List Bool} {p : ℕ} (hp : l.getD p false = true) :
    p < l.length := by
  by_contra hlt
  rw [getD_eq_false_of_le (Nat.le_of_not_lt hlt)] at hp
  exact Bool.false_ne_true hp

lemma getD_set_self {l : List Bool} {p : ℕ} (b : Bool) (hp : p < l.length) :
    (l.set p b).getD p false = b := by
  induction l generalizing p with
  | nil => simp at hp
  | cons x xs ih =>
    cases p with
    | zero => simp [List.getD]
    | succ q =>
      simp only [List.length_cons, Nat.succ_lt_succ_iff] at hp
      simpa [List.getD] using ih hp

lemma getD_set_other {l : List Bool} {p q : ℕ} (b : Bool) (hne : q ≠ p) :
    (l.set p b).getD q false = l.getD q false := by
  induction l generalizing p q with
  | nil => simp
  | cons x xs ih =>
    cases p with
    | zero =>
      cases q with
      | zero => exact absurd rfl hne
      | succ j => simp [List.getD]
    | succ i =>
      cases q with
      | zero => simp [List.getD]
      | succ j =>
        have : j ≠ i := fun hji => hne (by rw [hji])
        simpa [List.getD] using ih this

lemma getD_set_true_mono {l : List Bool} {p q : ℕ} (hp : l.getD p false = true) :
    (l.set q true).getD p false = true := by
  rcases eq_or_ne p q with rfl | hne
  · exact getD_set_self true (lt_length_of_getD_true hp)
  · rw [getD_set_other true hne]
    exact hp

lemma count_set_true {l : List Bool} {p : ℕ} (hlt : p < l.length)
    (hfalse : l.getD p false = false) :
    (l.set p true).count true = l.count true + 1 := by
  induction l generalizing p with
  | nil => simp at hlt
  | cons x xs ih =>
    cases p with
    | zero =>
      have hx : x = false := by simpa [List.getD] using hfalse
      subst hx
      simp [List.count_cons]
    | succ q =>
      simp only [List.length_cons, Nat.succ_lt_succ_iff] at hlt
      have hq : xs.getD q false = false := by simpa [List.getD] using hfalse
      simp [List.count_cons, ih hlt hq, Nat.add_assoc, Nat.add_comm 1]

/-! ### Loop characterization lemmas -/

section Loops

variable {κ : Type} (h : κ → ℕ → ℕ) (key : κ) (numBits : ℕ)

lemma insertLoop_fst_length (rounds seed : ℕ) (bv : List Bool) (bs : ℕ) :
    (insertLoop h key numBits rounds seed bv bs).1.length = bv.length := by
  induction rounds generalizing seed bv bs with
  | zero => rfl
  | succ n ih =>
    simp only [insertLoop]
    split
    · exact ih _ _ _
    · rw [ih]
      exact List.length_set bv _ _

lemma insertLoop_getD_mono {rounds seed : ℕ} {bv : List Bool} {bs p : ℕ}
    (hp : bv.getD p false = true) :
    (insertLoop h key numBits rounds seed bv bs).1.getD p false = true := by
  induction rounds generalizing seed bv bs with
  | zero => exact hp
  | succ n ih =>
    simp only [insertLoop]
    split
    · exact ih hp
    · exact ih (getD_set_true_mono hp)

lemma insertLoop_sets_chain {rounds seed : ℕ} {bv : List Bool} {bs : ℕ}
    (hlen : bv.length = numBits) (hpos : 0 < numBits) :
    ∀ p ∈ hashChain h key numBits rounds seed,
      (insertLoop h key numBits rounds seed bv bs).1.getD p false = true := by
  induction rounds generalizing seed bv bs with
  | zero => intro p hp; simp [hashChain] at hp
  | succ n ih =>
    intro p hp
    simp only [hashChain, List.mem_cons] at hp
    have hqlt : h key seed % numBits < bv.length := by
      rw [hlen]; exact Nat.mod_lt _ hpos
    rcases hp with rfl | hp
    · simp only [insertLoop]
      split
      · exact insertLoop_getD_mono h key numBits (by assumption)
      · exact insertLoop_getD_mono h key numBits (getD_set_self true hqlt)
    · simp only [insertLoop]
      split
      · exact ih hlen p hp
      · exact ih (by rw [List.length_set]; exact hlen) p hp

lemma insertLoop_getD_frame {rounds seed : ℕ} {bv : List Bool} {bs p : ℕ}
    (hp : p ∉ hashChain h key numBits rounds seed) :
    (insertLoop h key numBits rounds seed bv bs).1.getD p false = bv.getD p false := by
  induction rounds generalizing seed bv bs with
  | zero => rfl
  | succ n ih =>
    simp only [hashChain, List.mem_cons, not_or] at hp
    obtain ⟨hhead, htail⟩ := hp
    simp only [insertLoop]
    split
    · exact ih htail
    · rw [ih htail, getD_set_other true hhead]

lemma insertLoop_snd_mono (rounds seed : ℕ) (bv : List Bool) (bs : ℕ) :
    bs ≤ (insertLoop h key numBits rounds seed bv bs).2 := by
  induction rounds generalizing seed bv bs with
  | zero => exact le_rfl
  | succ n ih =>
    simp only [insertLoop]
    split
    · exact ih _ _ _
    · exact le_trans (Nat.le_succ bs) (ih _ _ _)

lemma insertLoop_snd_count {rounds seed : ℕ} {bv : List Bool} {bs : ℕ}
    (hlen : bv.length = numBits) (hpos : 0 < numBits) (hbs : bs = bv.count true) :
    (insertLoop h key numBits rounds seed bv bs).2 =
      (insertLoop h key numBits rounds seed bv bs).1.count true := by
  induction rounds generalizing seed bv bs with
  | zero => exact hbs
  | succ n ih =>
    simp only [insertLoop]
    split
    · exact ih hlen hbs
    · have hqlt : h key seed % numBits < bv.length := by
        rw [hlen]; exact Nat.mod_lt _ hpos
      refine ih (by rw [List.length_set]; exact hlen) ?_
      rw [count_set_true hqlt (by simpa using (by assumption : ¬bv.getD (h key seed % numBits) false = true)), hbs]

lemma insertLoop_noop {rounds seed : ℕ} {bv : List Bool} {bs : ℕ}
    (hall : ∀ p ∈ hashChain h key numBits rounds seed, bv.getD p false = true) :
    insertLoop h key numBits rounds seed bv bs = (bv, bs) := by
  induction rounds generalizing seed with
  | zero => rfl
  | succ n ih =>
    have hhead : bv.getD (h key seed % numBits) false = true :=
      hall _ (by simp [hashChain])
    simp only [insertLoop, hhead, if_true]
    exact ih fun p hp => hall p (by simp [hashChain, hp])

lemma findLoop_eq_all (bv : List Bool) (rounds seed : ℕ) :
    findLoop h key numBits bv rounds seed =
      (hashChain h key numBits rounds seed).all (fun p => bv.getD p false) := by
  induction rounds generalizing seed with
  | zero => rfl
  | succ n ih =>
    simp only [findLoop, hashChain, List.all_cons]
    by_cases hbit : bv.getD (h key seed % numBits) false = true
    · simp [hbit, ih]
    · simp [Bool.not_eq_true] at hbit
      simp [hbit]

lemma hashChain_lt {rounds seed : ℕ} (hpos : 0 < numBits) :
    ∀ p ∈ hashChain h key numBits rounds seed, p < numBits := by
  induction rounds generalizing seed with
  | zero => intro p hp; simp [hashChain] at hp
  | succ n ih =>
    intro p hp
    simp only [hashChain, List.mem_cons] at hp
    rcases hp with rfl | hp
    · exact Nat.mod_lt _ hpos
    · exact ih p hp

end Loops

/-! ### Operation-level lemmas -/

section Ops

variable {κ : Type} (h : κ → ℕ → ℕ)

@[simp] lemma insert_numKeys (bf : BloomFilter) (key : κ) :
    (bf.insert h key).numKeys = bf.numKeys := rfl

@[simp] lemma insert_numHashes (bf : BloomFilter) (key : κ) :
    (bf.insert h key).numHashes = bf.numHashes := rfl

@[simp] lemma insert_maxFalsePositive (bf : BloomFilter) (key : κ) :
    (bf.insert h key).maxFalsePositive = bf.maxFalsePositive := rfl

@[simp] lemma insert_numBits (bf : BloomFilter) (key : κ) :
    (bf.insert h key).numBits = bf.numBits := rfl

lemma insert_length (bf : BloomFilter) (key : κ) :
    (bf.insert h key).bitVector.length = bf.bitVector.length :=
  insertLoop_fst_length h key bf.numBits bf.numHashes 0 bf.bitVector bf.bitsSet

lemma insert_getD_mono {bf : BloomFilter} {p : ℕ} (key : κ)
    (hp : bf.bitVector.getD p false = true) :
    (bf.insert h key).bitVector.getD p false = true :=
  insertLoop_getD_mono h key bf.numBits hp

lemma insert_sets_chain {bf : BloomFilter} (key : κ) (hwf : bf.WF) :
    ∀ p ∈ hashChain h key bf.numBits bf.numHashes 0,
      (bf.insert h key).bitVector.getD p false = true :=
  insertLoop_sets_chain h key bf.numBits hwf.1 hwf.2

lemma insert_getD_frame {bf : BloomFilter} {p : ℕ} (key : κ)
    (hp : p ∉ hashChain h key bf.numBits bf.numHashes 0) :
    (bf.insert h key).bitVector.getD p false = bf.bitVector.getD p false :=
  insertLoop_getD_frame h key bf.numBits hp

lemma insert_bitsSet_mono (bf : BloomFilter) (key : κ) :
    bf.bitsSet ≤ (bf.insert h key).bitsSet :=
  insertLoop_snd_mono h key bf.numBits bf.numHashes 0 bf.bitVector bf.bitsSet

lemma insert_bitsSet_count {bf : BloomFilter} (key : κ) (hwf : bf.WF)
    (hbs : bf.bitsSet = bf.bitVector.count true) :
    (bf.insert h key).bitsSet = (bf.insert h key).bitVector.count true :=
  insertLoop_snd_count h key bf.numBits hwf.1 hwf.2 hbs

lemma insert_WF {bf : BloomFilter} (key : κ) (hwf : bf.WF) :
    (bf.insert h key).WF :=
  ⟨by rw [insert_length, insert_numBits]; exact hwf.1, hwf.2⟩

lemma insert_noop {bf : BloomFilter} (key : κ)
    (hall : ∀ p ∈ hashChain h key bf.numBits bf.numHashes 0,
      bf.bitVector.getD p false = true) :
    bf.insert h key = bf := by
  show ({ bf with
      bitVector := (insertLoop h key bf.numBits bf.numHashes 0 bf.bitVector bf.bitsSet).1,
      bitsSet := (insertLoop h key bf.numBits bf.numHashes 0 bf.bitVector bf.bitsSet).2 }
    : BloomFilter) = bf
  rw [insertLoop_noop h key bf.numBits hall]

lemma find_eq_all (bf : BloomFilter) (key : κ) :
    bf.find h key =
      (hashChain h key bf.numBits bf.numHashes 0).all
        (fun p => bf.bitVector.getD p false) :=
  findLoop_eq_all h key bf.numBits bf.bitVector bf.numHashes 0

lemma foldl_insert_numBits (bf : BloomFilter) (ks : List κ) :
    (ks.foldl (BloomFilter.insert h) bf).numBits = bf.numBits := by
  induction ks generalizing bf with
  | nil => rfl
  | cons k ks ih => simpa using ih (bf.insert h k)

lemma foldl_insert_numHashes (bf : BloomFilter) (ks : List κ) :
    (ks.foldl (BloomFilter.insert h) bf).numHashes = bf.numHashes := by
  induction ks generalizing bf with
  | nil => rfl
  | cons k ks ih => simpa using ih (bf.insert h k)

lemma foldl_insert_getD_mono {bf : BloomFilter} {p : ℕ} (ks : List κ)
    (hp : bf.bitVector.getD p false = true) :
    (ks.foldl (BloomFilter.insert h) bf).bitVector.getD p false = true := by
  induction ks generalizing bf with
  | nil => exact hp
  | cons k ks ih => exact ih (insert_getD_mono h k hp)

lemma foldl_insert_WF {bf : BloomFilter} (ks : List κ) (hwf : bf.WF) :
    (ks.foldl (BloomFilter.insert h) bf).WF := by
  induction ks generalizing bf with
  | nil => exact hwf
  | cons k ks ih => exact ih (insert_WF h k hwf)

lemma foldl_insert_bitsSet_count {bf : BloomFilter} (ks : List κ) (hwf : bf.WF)
    (hbs : bf.bitsSet = bf.bitVector.count true) :
    (ks.foldl (BloomFilter.insert h) bf).bitsSet =
      (ks.foldl (BloomFilter.insert h) bf).bitVector.count true := by
  induction ks generalizing bf with
  | nil => exact hbs
  | cons k ks ih => exact ih (insert_WF h k hwf) (insert_bitsSet_count h k hwf hbs)

end Ops

/-! ### Arithmetic lemmas about the sizing formula -/

lemma denom_pos {numKeys numHashes : ℕ} {p : ℝ}
    (hn : 1 ≤ numKeys) (hd : 1 ≤ numHashes) (hp0 : 0 < p) (hp1 : p < 1) :
    0 < 1 - (1 - p ^ ((1 : ℝ) / (numHashes : ℝ))) ^ ((1 : ℝ) / (numKeys : ℝ)) := by
  have hdpos : (0 : ℝ) < (numHashes : ℝ) := by exact_mod_cast hd
  have hnpos : (0 : ℝ) < (numKeys : ℝ) := by exact_mod_cast hn
  have hzd : (0 : ℝ) < 1 / (numHashes : ℝ) := div_pos one_pos hdpos
  have hzn : (0 : ℝ) < 1 / (numKeys : ℝ) := div_pos one_pos hnpos
  have ha1 : p ^ ((1 : ℝ) / (numHashes : ℝ)) < 1 := Real.rpow_lt_one hp0.le hp1 hzd
  have ha0 : 0 < p ^ ((1 : ℝ) / (numHashes : ℝ)) := Real.rpow_pos_of_pos hp0 _
  have hb1 : (1 - p ^ ((1 : ℝ) / (numHashes : ℝ))) ^ ((1 : ℝ) / (numKeys : ℝ)) < 1 :=
    Real.rpow_lt_one (by linarith) (by linarith) hzn
  linarith

lemma bitsNeeded_pos {numKeys numHashes : ℕ} {p : ℝ}
    (hn : 1 ≤ numKeys) (hd : 1 ≤ numHashes) (hp0 : 0 < p) (hp1 : p < 1) :
    1 ≤ bitsNeeded numKeys numHashes p := by
  have hden := denom_pos hn hd hp0 hp1
  have hdpos : (0 : ℝ) < (numHashes : ℝ) := by exact_mod_cast hd
  have hx : 0 < (numHashes : ℝ) /
      (1 - (1 - p ^ ((1 : ℝ) / (numHashes : ℝ))) ^ ((1 : ℝ) / (numKeys : ℝ))) :=
    div_pos hdpos hden
  have hc : 0 < bitsNeeded numKeys numHashes p := Int.ceil_pos.mpr hx
  omega

lemma mkBloomFilter_eq_some {numKeys numHashes : ℕ} {p : ℝ}
    (hn : 1 ≤ numKeys) (hd : 1 ≤ numHashes) (hp0 : 0 < p) (hp1 : p < 1) :
    mkBloomFilter numKeys numHashes p =
      some
        { numKeys := numKeys
          numHashes := numHashes
          maxFalsePositive := p
          numBits := (bitsNeeded numKeys numHashes p).toNat
          bitVector := List.replicate (bitsNeeded numKeys numHashes p).toNat false
          bitsSet := 0 } := by
  have hden := denom_pos hn hd hp0 hp1
  simp only [mkBloomFilter]
  rw [if_neg (by omega), if_neg (by omega), if_neg hden.ne']

lemma mkBloomFilter_WF {numKeys numHashes : ℕ} {p : ℝ} {bf : BloomFilter}
    (hn : 1 ≤ numKeys) (hd : 1 ≤ numHashes) (hp0 : 0 < p) (hp1 : p < 1)
    (hmk : mkBloomFilter numKeys numHashes p = some bf) :
    bf.WF ∧ bf.bitsSet = bf.bitVector.count true ∧
      bf.numBits = (bitsNeeded numKeys numHashes p).toNat ∧
      bf.numHashes = numHashes := by
  rw [mkBloomFilter_eq_some hn hd hp0 hp1, Option.some_inj] at hmk
  subst hmk
  refine ⟨⟨List.length_replicate _ _, ?_⟩, ?_, rfl, rfl⟩
  · have h1 := bitsNeeded_pos hn hd hp0 hp1
    simp only [Int.lt_toNat]
    omega
  · simp [List.count_replicate]

lemma mkBloomFilter_numHashes_zero (numKeys : ℕ) (p : ℝ) :
    mkBloomFilter numKeys 0 p = none := by
  simp [mkBloomFilter]

lemma mkBloomFilter_numKeys_zero (numHashes : ℕ) (p : ℝ) :
    mkBloomFilter 0 numHashes p = none := by
  rcases eq_or_ne numHashes 0 with rfl | hd
  · simp [mkBloomFilter]
  · simp [mkBloomFilter, hd]

lemma mkBloomFilter_rate_zero (numKeys numHashes : ℕ) :
    mkBloomFilter numKeys numHashes (0 : ℝ) = none := by
  rcases eq_or_ne numHashes 0 with rfl | hd
  · simp [mkBloomFilter]
  · rcases eq_or_ne numKeys 0 with rfl | hn
    · simp [mkBloomFilter, hd]
    · have hdc : ((numHashes : ℝ)) ≠ 0 := Nat.cast_ne_zero.mpr hd
      have hz : ((1 : ℝ) / (numHashes : ℝ)) ≠ 0 := one_div_ne_zero hdc
      simp [mkBloomFilter, hd, hn, Real.zero_rpow hz, Real.one_rpow]

lemma mkBloomFilter_rate_one {numKeys numHashes : ℕ}
    (hn : 1 ≤ numKeys) (hd : 1 ≤ numHashes) :
    mkBloomFilter numKeys numHashes (1 : ℝ) =
      some
        { numKeys := numKeys
          numHashes := numHashes
          maxFalsePositive := 1
          numBits := numHashes
          bitVector := List.replicate numHashes false
          bitsSet := 0 } := by
  have hdc : ((numKeys : ℝ)) ≠ 0 := Nat.cast_ne_zero.mpr (by omega)
  have hz : ((1 : ℝ) / (numKeys : ℝ)) ≠ 0 := one_div_ne_zero hdc
  have hphi : (1 : ℝ) - (1 : ℝ) ^ ((1 : ℝ) / (numHashes : ℝ)) = 0 := by
    rw [Real.one_rpow]; ring
  have hbn : bitsNeeded numKeys numHashes (1 : ℝ) = (numHashes : ℤ) := by
    simp only [bitsNeeded, hphi, Real.zero_rpow hz, sub_zero, div_one]
    exact Int.ceil_natCast numHashes
  simp only [mkBloomFilter, hphi, Real.zero_rpow hz, sub_zero, hbn]
  rw [if_neg (by omega), if_neg (by omega), if_neg one_ne_zero]
  simp [Int.toNat_natCast]

lemma falsePositiveRate_eq_pow (bf : BloomFilter) (hpos : 0 < bf.numBits) :
    bf.falsePositiveRate = ((bf.bitsSet : ℝ) / (bf.numBits : ℝ)) ^ bf.numHashes := by
  have hN : ((bf.numBits : ℝ)) ≠ 0 := Nat.cast_ne_zero.mpr (by omega)
  show (1 - ((bf.numBits : ℝ) - (bf.bitsSet : ℝ)) / (bf.numBits : ℝ)) ^ bf.numHashes = _
  congr 1
  field_simp

/-! ### Sample states used by the witness theorems -/

/-- A concrete hash function standing in for the external `BitHash`. -/
def sampleHash : ℕ → ℕ → ℕ := fun k s => k + 3 * s + 1

/-- A concrete well-formed filter state: `numKeys = 1`, `numHashes = 2`,
`maxFalsePositive = 1/2`, `numBits = 3`, all bits clear. -/
noncomputable def sampleFilter : BloomFilter :=
  { numKeys := 1, numHashes := 2, maxFalsePositive := 1/2, numBits := 3
    bitVector := List.replicate 3 false, bitsSet := 0 }

lemma sampleFilter_WF : sampleFilter.WF :=
  ⟨List.length_replicate 3 false, by norm_num [sampleFilter]⟩

lemma bitsNeeded_one_one_half : bitsNeeded 1 1 (1/2 : ℝ) = 2 := by
  simp only [bitsNeeded, Nat.cast_one, div_one, Real.rpow_one]
  rw [show (1 : ℝ) / (1 - (1 - 1/2)) = ((2 : ℤ) : ℝ) by norm_num, Int.ceil_intCast]

/-- The filter state produced by `mkBloomFilter 1 1 (1/2)`. -/
noncomputable def smallFilter : BloomFilter :=
  { numKeys := 1, numHashes := 1, maxFalsePositive := 1/2, numBits := 2
    bitVector := List.replicate 2 false, bitsSet := 0 }

lemma mkBloomFilter_one_one_half :
    mkBloomFilter 1 1 (1/2 : ℝ) = some smallFilter := by
  rw [mkBloomFilter_eq_some (le_refl 1) (le_refl 1) (by norm_num) (by norm_num),
    bitsNeeded_one_one_half]
  rfl

/-! ### Claim theorems -/

/-- C1: No false negatives.  For every key `k` and every well-formed filter,
after `insert k` every later `find k` returns true, regardless of any
sequence of further `insert` calls performed in between. -/
theorem c1_no_false_negatives {κ : Type} (h : κ → ℕ → ℕ) (bf : BloomFilter)
    (k : κ) (hwf : bf.WF) (ks : List κ) :
    (ks.foldl (BloomFilter.insert h) (bf.insert h k)).find h k = true := by
  rw [find_eq_all, List.all_eq_true]
  rw [foldl_insert_numBits, foldl_insert_numHashes, insert_numBits, insert_numHashes]
  intro p hp
  exact foldl_insert_getD_mono h ks (insert_sets_chain h k hwf p hp)

/-- C1 witness: a concrete instantiation of `c1_no_false_negatives`. -/
theorem c1_witness :
    (([9] : List ℕ).foldl (BloomFilter.insert sampleHash)
      (sampleFilter.insert sampleHash 5)).find sampleHash 5 = true :=
  c1_no_false_negatives sampleHash sampleFilter 5 sampleFilter_WF [9]

/-- C4: Insert and find are governed by the identical index chain: `find`
examines exactly the bits of `hashChain` (seed 0, `seed ← h key seed`,
index `seed mod numBits`) and `insert` writes exactly within that same
chain — every chain bit is set afterwards and every other bit is
unchanged. -/
theorem c4_same_chain {κ : Type} (h : κ → ℕ → ℕ) (bf : BloomFilter) (key : κ)
    (hwf : bf.WF) :
    bf.find h key =
      (hashChain h key bf.numBits bf.numHashes 0).all
        (fun p => bf.bitVector.getD p false) ∧
    (∀ p ∈ hashChain h key bf.numBits bf.numHashes 0,
      (bf.insert h key).bitVector.getD p false = true) ∧
    (∀ p, p ∉ hashChain h key bf.numBits bf.numHashes 0 →
      (bf.insert h key).bitVector.getD p false = bf.bitVector.getD p false) :=
  ⟨find_eq_all h bf key, insert_sets_chain h key hwf,
    fun _ hp => insert_getD_frame h key hp⟩

/-- C4 witness: a concrete instantiation of `c4_same_chain`. -/
theorem c4_witness :
    sampleFilter.find sampleHash 5 =
      (hashChain sampleHash 5 sampleFilter.numBits sampleFilter.numHashes 0).all
        (fun p => sampleFilter.bitVector.getD p false) ∧
    (∀ p ∈ hashChain sampleHash 5 sampleFilter.numBits sampleFilter.numHashes 0,
      (sampleFilter.insert sampleHash 5).bitVector.getD p false = true) ∧
    (∀ p, p ∉ hashChain sampleHash 5 sampleFilter.numBits sampleFilter.numHashes 0 →
      (sampleFilter.insert sampleHash 5).bitVector.getD p false =
        sampleFilter.bitVector.getD p false) :=
  c4_same_chain sampleHash sampleFilter 5 sampleFilter_WF

/-- C5: In every state reachable from a valid construction by inserts (the
read-only operations do not change state), `bitsSet` equals the exact
number of 1-bits in the bit vector, is at most `numBits`, and does not
decrease at the next insert; `numBitsSet` returns exactly this counter. -/
theorem c5_bitsSet_invariant {κ : Type} (h : κ → ℕ → ℕ)
    (numKeys numHashes : ℕ) (p : ℝ) (bf0 bf : BloomFilter) (ks : List κ) (k : κ)
    (hn : 1 ≤ numKeys) (hd : 1 ≤ numHashes) (hp0 : 0 < p) (hp1 : p < 1)
    (hmk : mkBloomFilter numKeys numHashes p = some bf0)
    (hbf : bf = ks.foldl (BloomFilter.insert h) bf0) :
    bf.numBitsSet = bf.bitVector.count true ∧
    bf.numBitsSet ≤ bf.numBits ∧
    bf.numBitsSet ≤ (bf.insert h k).numBitsSet := by
  obtain ⟨hwf0, hcount0, -, -⟩ := mkBloomFilter_WF hn hd hp0 hp1 hmk
  subst hbf
  have hwf := foldl_insert_WF h ks hwf0
  have hcount := foldl_insert_bitsSet_count h ks hwf0 hcount0
  refine ⟨hcount, ?_, insert_bitsSet_mono h _ k⟩
  calc (ks.foldl (BloomFilter.insert h) bf0).bitsSet
      = (ks.foldl (BloomFilter.insert h) bf0).bitVector.count true := hcount
    _ ≤ (ks.foldl (BloomFilter.insert h) bf0).bitVector.length :=
        List.count_le_length _ _
    _ = (ks.foldl (BloomFilter.insert h) bf0).numBits := hwf.1

/-- C5 witness: a concrete instantiation of `c5_bitsSet_invariant`. -/
theorem c5_witness :
    (([5] : List ℕ).foldl (BloomFilter.insert sampleHash) smallFilter).numBitsSet =
      (([5] : List ℕ).foldl (BloomFilter.insert sampleHash) smallFilter).bitVector.count
        true ∧
    (([5] : List ℕ).foldl (BloomFilter.insert sampleHash) smallFilter).numBitsSet ≤
      (([5] : List ℕ).foldl (BloomFilter.insert sampleHash) smallFilter).numBits ∧
    (([5] : List ℕ).foldl (BloomFilter.insert sampleHash) smallFilter).numBitsSet ≤
      ((([5] : List ℕ).foldl (BloomFilter.insert sampleHash) smallFilter).insert
        sampleHash 7).numBitsSet :=
  c5_bitsSet_invariant sampleHash 1 1 (1/2) smallFilter _ [5] 7
    (le_refl 1) (le_refl 1) (by norm_num) (by norm_num)
    mkBloomFilter_one_one_half rfl

/-- C7: Inserting the same key twice in a row yields exactly the same state
(bit vector, counter and configuration) as inserting it once. -/
theorem c7_insert_idempotent {κ : Type} (h : κ → ℕ → ℕ) (bf : BloomFilter)
    (k : κ) (hwf : bf.WF) :
    (bf.insert h k).insert h k = bf.insert h k := by
  apply insert_noop
  intro p hp
  exact insert_sets_chain h k hwf p hp

/-- C7 witness: a concrete instantiation of `c7_insert_idempotent`. -/
theorem c7_witness :
    (sampleFilter.insert sampleHash 4).insert sampleHash 4 =
      sampleFilter.insert sampleHash 4 :=
  c7_insert_idempotent sampleHash sampleFilter 4 sampleFilter_WF

/-- C8: `find` returns true exactly when all `numHashes` addressed bits are
1, hence false as soon as one addressed bit is 0; it reads the state and
returns only a boolean (the embedding of the mutation-free source body). -/
theorem c8_find_reads_all_bits {κ : Type} (h : κ → ℕ → ℕ) (bf : BloomFilter)
    (key : κ) :
    bf.find h key = true ↔
      ∀ p ∈ hashChain h key bf.numBits bf.numHashes 0,
        bf.bitVector.getD p false = true := by
  rw [find_eq_all, List.all_eq_true]

/-- C6: `falsePositiveRate` returns `(bitsSet / numBits) ^ numHashes`,
computed from the cached counter (the embedding of the mutation-free
source body). -/
theorem c6_falsePositiveRate_formula (bf : BloomFilter) (hpos : 0 < bf.numBits) :
    bf.falsePositiveRate =
      ((bf.bitsSet : ℝ) / (bf.numBits : ℝ)) ^ bf.numHashes :=
  falsePositiveRate_eq_pow bf hpos

/-- C6 witness: a concrete instantiation of `c6_falsePositiveRate_formula`. -/
theorem c6_witness :
    sampleFilter.falsePositiveRate =
      ((sampleFilter.bitsSet : ℝ) / (sampleFilter.numBits : ℝ)) ^
        sampleFilter.numHashes :=
  c6_falsePositiveRate_formula sampleFilter (by norm_num [sampleFilter])

/-- C9: the estimated false-positive rate never decreases across an
insert. -/
theorem c9_falsePositiveRate_mono {κ : Type} (h : κ → ℕ → ℕ) (bf : BloomFilter)
    (k : κ) (hpos : 0 < bf.numBits) :
    bf.falsePositiveRate ≤ (bf.insert h k).falsePositiveRate := by
  have hpos' : 0 < (bf.insert h k).numBits := by rw [insert_numBits]; exact hpos
  rw [falsePositiveRate_eq_pow bf hpos, falsePositiveRate_eq_pow _ hpos',
    insert_numBits, insert_numHashes]
  have hbs : ((bf.bitsSet : ℝ)) ≤ ((bf.insert h k).bitsSet : ℝ) := by
    exact_mod_cast insert_bitsSet_mono h bf k
  have hNpos : (0 : ℝ) < (bf.numBits : ℝ) := by exact_mod_cast hpos
  refine pow_le_pow_left₀ (by positivity) ?_ bf.numHashes
  gcongr

/-- C9 witness: a concrete instantiation of `c9_falsePositiveRate_mono`. -/
theorem c9_witness :
    sampleFilter.falsePositiveRate ≤
      (sampleFilter.insert sampleHash 8).falsePositiveRate :=
  c9_falsePositiveRate_mono sampleHash sampleFilter 8 (by norm_num [sampleFilter])

/-- C3: on valid inputs `__bitsNeeded` agrees with the spec's two-step
closed form `ceil(numHashes / (1 - phi^(1/numKeys)))`,
`phi = 1 - maxFalsePositiveRate^(1/numHashes)`, returns a positive
integer, and in particular does so at `(100000, 4, 0.05)`. -/
theorem c3_bitsNeeded_formula (numKeys numHashes : ℕ) (p : ℝ)
    (hn : 1 ≤ numKeys) (hd : 1 ≤ numHashes) (hp0 : 0 < p) (hp1 : p < 1) :
    bitsNeeded numKeys numHashes p = specBitsNeeded numKeys numHashes p ∧
    1 ≤ bitsNeeded numKeys numHashes p ∧
    bitsNeeded 100000 4 (0.05 : ℝ) = specBitsNeeded 100000 4 (0.05 : ℝ) :=
  ⟨rfl, bitsNeeded_pos hn hd hp0 hp1, rfl⟩

/-- C3 witness: a concrete instantiation of `c3_bitsNeeded_formula`. -/
theorem c3_witness :
    bitsNeeded 100000 4 (0.05 : ℝ) = specBitsNeeded 100000 4 (0.05 : ℝ) ∧
    1 ≤ bitsNeeded 100000 4 (0.05 : ℝ) ∧
    bitsNeeded 100000 4 (0.05 : ℝ) = specBitsNeeded 100000 4 (0.05 : ℝ) :=
  c3_bitsNeeded_formula 100000 4 (0.05 : ℝ) (by norm_num) (by norm_num)
    (by norm_num) (by norm_num)

/-- C10: on valid inputs construction succeeds, the computed `numBits` is
at least 1, and every index of the hash chain (for any hash function and
key) is strictly below `numBits`, so `seed mod numBits` never divides by
zero and every bit access is in bounds. -/
theorem c10_indices_in_bounds {κ : Type} (numKeys numHashes : ℕ) (p : ℝ)
    (hn : 1 ≤ numKeys) (hd : 1 ≤ numHashes) (hp0 : 0 < p) (hp1 : p < 1) :
    (mkBloomFilter numKeys numHashes p).isSome = true ∧
    ∀ bf, mkBloomFilter numKeys numHashes p = some bf →
      0 < bf.numBits ∧
      ∀ (h : κ → ℕ → ℕ) (key : κ) (q : ℕ),
        q ∈ hashChain h key bf.numBits bf.numHashes 0 → q < bf.numBits := by
  refine ⟨by rw [mkBloomFilter_eq_some hn hd hp0 hp1]; rfl, ?_⟩
  intro bf hbf
  obtain ⟨hwf, -, -, -⟩ := mkBloomFilter_WF hn hd hp0 hp1 hbf
  exact ⟨hwf.2, fun h key q hq => hashChain_lt h key bf.numBits hwf.2 q hq⟩

/-- C10 witness: a concrete instantiation of `c10_indices_in_bounds`. -/
theorem c10_witness :
    (mkBloomFilter 2 3 (1/2 : ℝ)).isSome = true ∧
    ∀ bf, mkBloomFilter 2 3 (1/2 : ℝ) = some bf →
      0 < bf.numBits ∧
      ∀ (h : ℕ → ℕ → ℕ) (key : ℕ) (q : ℕ),
        q ∈ hashChain h key bf.numBits bf.numHashes 0 → q < bf.numBits :=
  c10_indices_in_bounds 2 3 (1/2 : ℝ) (by norm_num) (by norm_num) (by norm_num)
    (by norm_num)

/-- C2 counterexample: with `maxFalsePositiveRate = 1` (not strictly
between 0 and 1) construction does not fail: it succeeds and allocates a
bit vector of `numHashes = 4` bits. -/
theorem c2_counterexample :
    mkBloomFilter 100000 4 (1 : ℝ) =
      some
        { numKeys := 100000, numHashes := 4, maxFalsePositive := 1, numBits := 4
          bitVector := List.replicate 4 false, bitsSet := 0 } :=
  mkBloomFilter_rate_one (by norm_num) (by norm_num)

/-- C2 (amended): the constructor performs no validation and raises no
`InvalidConfiguration`.  With `numHashes = 0`, `numKeys = 0` or
`maxFalsePositiveRate = 0` it fails with an arithmetic `ZeroDivisionError`
before allocating storage (modelled as `none`), but with
`maxFalsePositiveRate = 1` it succeeds, allocating `numHashes` bits. -/
theorem c2_construction_behavior (numKeys numHashes : ℕ) (p : ℝ) :
    mkBloomFilter numKeys 0 p = none ∧
    mkBloomFilter 0 numHashes p = none ∧
    mkBloomFilter numKeys numHashes (0 : ℝ) = none ∧
    (1 ≤ numKeys → 1 ≤ numHashes →
      mkBloomFilter numKeys numHashes (1 : ℝ) =
        some
          { numKeys := numKeys, numHashes := numHashes, maxFalsePositive := 1
            numBits := numHashes, bitVector := List.replicate numHashes false
            bitsSet := 0 }) :=
  ⟨mkBloomFilter_numHashes_zero numKeys p,
    mkBloomFilter_numKeys_zero numHashes p,
    mkBloomFilter_rate_zero numKeys numHashes,
    fun hn hd => mkBloomFilter_rate_one hn hd⟩

/-- C2 witness: a concrete instantiation of `c2_construction_behavior`. -/
theorem c2_witness :
    mkBloomFilter 7 0 (1/2 : ℝ) = none ∧
    mkBloomFilter 7 3 (1 : ℝ) =
      some
        { numKeys := 7, numHashes := 3, maxFalsePositive := 1, numBits := 3
          bitVector := List.replicate 3 false, bitsSet := 0 } :=
  ⟨(c2_construction_behavior 7 3 (1/2)).1,
    (c2_construction_behavior 7 3 (1/2)).2.2.2 (by norm_num) (by norm_num)⟩

end BloomSpec

